import Mathlib

/-!
Verification of the gitingest ingestion/traversal engine against its
natural-language specification.

Shallow embedding conventions:
* filesystem paths are lists of name components (`List String`), already
  canonical; `Path.resolve()` is an abstract parameter
  `resolve : List String → Option (List String)` (`none` models a resolution
  failure such as a cyclic symlink);
* Python `str` text processed by the secret redactor is embedded as
  `List Char`;
* the glob matcher `fnmatch.fnmatch` (Python stdlib) is an abstract parameter
  `String → String → Bool`; a concrete star/question matcher `fnmatchStr` is
  provided for evaluating theorems on concrete inputs;
* machine integers are `Nat` (sizes, counts and limits in the source are
  non-negative Python ints, which are unbounded).
-/

/-! ### Path helpers (src/gitingest/utils/path_utils.py, pathlib semantics) -/

/-- `base in target.parents` for `pathlib.Path`: the parents of a path are its
proper ancestors, i.e. `base` is a proper leading segment of `target`. -/
def inParents (base target : List String) : Bool :=
  base.isPrefixOf target && !(base == target)

/-- `Path.relative_to`: succeeds iff `base` is a leading segment of `path`,
returning the remaining components. -/
def relativeTo (path base : List String) : Option (List String) :=
  if base.isPrefixOf path then some (path.drop base.length) else none

/-- `str()` of a relative path: components joined by `/`; the empty relative
path renders as `.` as in pathlib. -/
def joinRel (comps : List String) : String :=
  if comps.isEmpty then "." else String.intercalate "/" comps

/-! ### Symlink-safety predicates -/

/-- Embedding of `is_safe_path` (src/gitingest/security/path_safety.py):
`base in target.resolve(strict=False).parents`, returning `False` when
resolution raises (cyclic symlink, caught `RuntimeError`). -/
def is_safe_path (resolve : List String → Option (List String))
    (base target : List String) : Bool :=
  match resolve target with
  | none => false
  | some t => inParents base t

/-- Embedding of `_is_safe_symlink` (src/gitingest/utils/path_utils.py) on a
POSIX platform (the Windows-only guard is skipped): resolve both the symlink
and the base, then `base_resolved in target_path.parents or
target_path == base_resolved`; any resolution failure (caught `OSError` /
`ValueError`) yields `False`.  `_normalize_path` is the identity on the
already-canonical resolved paths of this embedding. -/
def _is_safe_symlink (resolve : List String → Option (List String))
    (symlinkPath basePath : List String) : Bool :=
  match resolve symlinkPath, resolve basePath with
  | some t, some b => inParents b t || t == b
  | _, _ => false

/-! ### A concrete glob matcher for concrete evaluations

Python's `fnmatch.fnmatch` restricted to the `*` / `?` / literal fragment
(case-sensitive, as on POSIX).  The traversal and filter embeddings are
parametric in the matcher; this function instantiates that parameter when a
theorem is evaluated on concrete inputs. -/

def fnmatchGo : Nat → List Char → List Char → Bool
  | 0, _, _ => false
  | _ + 1, s, [] => s.isEmpty
  | fuel + 1, [], '*' :: p => fnmatchGo fuel [] p
  | fuel + 1, c :: s, '*' :: p =>
      fnmatchGo fuel (c :: s) p || fnmatchGo fuel s ('*' :: p)
  | _ + 1, [], '?' :: _ => false
  | fuel + 1, _ :: s, '?' :: p => fnmatchGo fuel s p
  | _ + 1, [], _ :: _ => false
  | fuel + 1, c :: s, c2 :: p => c == c2 && fnmatchGo fuel s p

/-- String wrapper of `fnmatchGo`.  Every recursive call shrinks
`s.length + p.length`, so `s.length + pat.length + 1` fuel never runs out. -/
def fnmatchStr (s pat : String) : Bool :=
  fnmatchGo (s.length + pat.length + 1) s.toList pat.toList

/-! ### PathFilter (src/gitingest/utils/ingestion_utils.py) -/

/-- Embedding of `_should_exclude`: the path is excluded when it cannot be
expressed relative to `base`, or its relative rendering matches a non-empty
ignore pattern. -/
def _should_exclude (m : String → String → Bool)
    (path base : List String) (ignorePatterns : List String) : Bool :=
  match relativeTo path base with
  | none => true
  | some rel => ignorePatterns.any fun pat => !(pat == "") && m (joinRel rel) pat

/-- Embedding of `_should_include`: false when the path is not under `base`;
otherwise the relative rendering (directories suffixed with `/`) must match
some include pattern. -/
def _should_include (m : String → String → Bool)
    (path base : List String) (includePatterns : List String)
    (isDir : Bool) : Bool :=
  match relativeTo path base with
  | none => false
  | some rel =>
      includePatterns.any fun pat =>
        m (joinRel rel ++ (if isDir then "/" else "")) pat

/-- The per-entry filter decision of `_process_node`
(src/gitingest/ingestion.py lines 191-195): the exclude guard runs first and
short-circuits via `continue`; the include guard runs only for a non-excluded
entry; an empty (or absent, both falsy) pattern set disables its guard. -/
def keepEntry (m : String → String → Bool) (base : List String)
    (ignorePatterns includePatterns : List String)
    (path : List String) (isDir : Bool) : Bool :=
  if !ignorePatterns.isEmpty && _should_exclude m path base ignorePatterns then
    false
  else if !includePatterns.isEmpty
      && !_should_include m path base includePatterns isDir then
    false
  else
    true

/-! ### Filesystem model -/

/-- One directory entry of the scanned filesystem.  A symlink carries its
fully resolved target (`none` models an unresolvable/cyclic link) together
with the answers `os.path`-style `is_dir()` / `is_file()` would give for it
(both follow links). -/
inductive FSEntry where
  | file (name : String) (size : Nat)
  | dir (name : String) (entries : List FSEntry)
  | symlink (name : String) (target : Option (List String))
      (targetIsDir : Bool) (targetIsFile : Bool)
  | other (name : String)
deriving Repr

/-- Entry name (`sub_path.name`). -/
def FSEntry.name : FSEntry → String
  | .file n _ => n
  | .dir n _ => n
  | .symlink n _ _ _ => n
  | .other n => n

/-- `sub_path.is_dir()` (follows symlinks). -/
def FSEntry.isDirE : FSEntry → Bool
  | .dir _ _ => true
  | .symlink _ _ d _ => d
  | _ => false

/-- `sub_path.is_file()` (follows symlinks). -/
def FSEntry.isFileE : FSEntry → Bool
  | .file _ _ => true
  | .symlink _ _ _ f => f
  | _ => false

/-! ### Node tree and traversal state (src/gitingest/ingestion.py)

`FileSystemNode` itself is imported by the source from a schema module that is
not part of the sources; its fields and defaults below are those used by the
constructor calls in `ingestion.py` together with the spec's data model
(§3 Node). -/

/-- `FileSystemNodeType`. -/
inductive FSNodeType where
  | file
  | directory
  | symlink
deriving Repr, DecidableEq, Inhabited

/-- One `FileSystemNode`.  Children are stored as indices into the node store
(the Python objects alias each other; the store makes the aliasing explicit). -/
structure NodeRec where
  name : String := ""
  ntype : FSNodeType := .directory
  size : Nat := 0
  fileCount : Nat := 0
  dirCount : Nat := 0
  depth : Nat := 0
  relPath : List String := []
  children : List Nat := []
deriving Repr, DecidableEq, Inhabited

/-- `FileSystemStats` (total file count and accumulated size). -/
structure FileSystemStats where
  totalFiles : Nat := 0
  totalSize : Nat := 0
deriving Repr, DecidableEq, Inhabited

/-- The traversal limits (`MAX_DIRECTORY_DEPTH`, `MAX_FILES`,
`MAX_TOTAL_SIZE_BYTES` of src/gitingest/config.py, environment-configurable)
together with the query's pattern sets and base path and the glob matcher. -/
structure ScanConfig where
  maxDepth : Nat
  maxFiles : Nat
  maxTotalSize : Nat
  basePath : List String
  ignorePatterns : List String
  includePatterns : List String
  matcher : String → String → Bool

/-- Node store: node id = position. -/
def getN (store : List NodeRec) (i : Nat) : NodeRec := store.getD i default

/-- Write back a node record. -/
def setN (store : List NodeRec) (i : Nat) (n : NodeRec) : List NodeRec :=
  store.set i n

/-- One BFS work item: the directory node to process, its parent (as in the
`(current_node, parent)` queue pairs of `_process_node`), its depth, its
root-relative path and its directory listing. -/
structure QItem where
  nodeId : Nat
  parentId : Option Nat
  depth : Nat
  relPath : List String
  entries : List FSEntry
deriving Repr

/-- Embedding of `limit_exceeded` (src/gitingest/ingestion.py lines 304-335):
depth strictly above the maximum, or file count at/above the maximum, or total
size at/above the maximum. -/
def limit_exceeded (cfg : ScanConfig) (stats : FileSystemStats)
    (depth : Nat) : Bool :=
  decide (cfg.maxDepth < depth) || decide (cfg.maxFiles ≤ stats.totalFiles)
    || decide (cfg.maxTotalSize ≤ stats.totalSize)

/-- Accumulator for the `for sub_path in current_node.path.iterdir()` loop:
the store, the shared stats, the current node being mutated, and the child
directories enqueued so far. -/
structure PAcc where
  store : List NodeRec
  stats : FileSystemStats
  cur : NodeRec
  newItems : List QItem

/-- Embedding of the body of the `iterdir` loop of `_process_node`, covering
`_process_symlink` (lines 230-256: the symlink node is appended and counted
unconditionally — the function never consults a safety predicate) and
`_process_file` (lines 259-301: size-budget guard before accumulation, then
count increment, then the file-count guard, then the append and the parent
updates).  Directories are recorded and enqueued at `depth + 1`; unknown
entry kinds are skipped with a warning. -/
def processEntry (cfg : ScanConfig) (curId : Nat) (curRel : List String)
    (curDepth : Nat) (acc : PAcc) (e : FSEntry) : PAcc :=
  let rel := curRel ++ [e.name]
  let path := cfg.basePath ++ rel
  if !keepEntry cfg.matcher cfg.basePath cfg.ignorePatterns
      cfg.includePatterns path e.isDirE then
    acc
  else
    match e with
    | .symlink nm _ _ _ =>
        let child : NodeRec :=
          { name := nm, ntype := .symlink, depth := curDepth + 1, relPath := rel }
        let cid := acc.store.length
        { acc with
          store := acc.store ++ [child]
          stats := { acc.stats with totalFiles := acc.stats.totalFiles + 1 }
          cur := { acc.cur with
                    children := acc.cur.children ++ [cid]
                    fileCount := acc.cur.fileCount + 1 } }
    | .file nm sz =>
        if cfg.maxTotalSize < acc.stats.totalSize + sz then
          acc
        else
          let stats1 : FileSystemStats :=
            { totalFiles := acc.stats.totalFiles + 1
              totalSize := acc.stats.totalSize + sz }
          if cfg.maxFiles < stats1.totalFiles then
            { acc with stats := stats1 }
          else
            let child : NodeRec :=
              { name := nm, ntype := .file, size := sz, fileCount := 1,
                depth := curDepth + 1, relPath := rel }
            let cid := acc.store.length
            { acc with
              store := acc.store ++ [child]
              stats := stats1
              cur := { acc.cur with
                        children := acc.cur.children ++ [cid]
                        size := acc.cur.size + sz
                        fileCount := acc.cur.fileCount + 1 } }
    | .dir nm es =>
        let child : NodeRec :=
          { name := nm, ntype := .directory, depth := curDepth + 1, relPath := rel }
        let cid := acc.store.length
        { acc with
          store := acc.store ++ [child]
          cur := { acc.cur with children := acc.cur.children ++ [cid] }
          newItems := acc.newItems
            ++ [{ nodeId := cid, parentId := some curId, depth := curDepth + 1,
                  relPath := rel, entries := es }] }
    | .other _ => acc

/-- Modelled from the spec: `FileSystemNode.sort_children` lives in the schema
module absent from the sources; per §4.3 children are sorted "directories
before files, then lexicographic by name".  Comparison key for that order. -/
def childKeyLE (store : List NodeRec) (i j : Nat) : Bool :=
  let a := getN store i
  let b := getN store j
  let ra : Nat := if a.ntype = .directory then 0 else 1
  let rb : Nat := if b.ntype = .directory then 0 else 1
  decide (ra < rb) || (decide (ra = rb) && decide (a.name ≤ b.name))

/-- Modelled from the spec: insertion step of the `sort_children` ordering. -/
def insertChild (store : List NodeRec) (i : Nat) : List Nat → List Nat
  | [] => [i]
  | j :: rest =>
      if childKeyLE store i j then i :: j :: rest else j :: insertChild store i rest

/-- Modelled from the spec: `sort_children` as insertion sort over the §4.3
order (directories before files, then lexicographic by name). -/
def sortChildrenIds (store : List NodeRec) : List Nat → List Nat
  | [] => []
  | i :: rest => insertChild store i (sortChildrenIds store rest)

/-- Processing of one popped queue item in `_process_node`: run the `iterdir`
loop over the directory's entries, sort the children, write the node back,
then perform the parent aggregation
(`parent.size += current_node.size; parent.file_count += ...;
parent.dir_count += 1 + ...`). -/
def processItem (cfg : ScanConfig) (st : List NodeRec × FileSystemStats)
    (item : QItem) : (List NodeRec × FileSystemStats) × List QItem :=
  let cur0 := getN st.1 item.nodeId
  let acc :=
    item.entries.foldl
      (processEntry cfg item.nodeId item.relPath item.depth)
      ⟨st.1, st.2, cur0, []⟩
  let cur1 := { acc.cur with children := sortChildrenIds acc.store acc.cur.children }
  let store1 := setN acc.store item.nodeId cur1
  let store2 :=
    match item.parentId with
    | none => store1
    | some pid =>
        let p := getN store1 pid
        setN store1 pid
          { p with
            size := p.size + cur1.size
            fileCount := p.fileCount + cur1.fileCount
            dirCount := p.dirCount + 1 + cur1.dirCount }
  ((store2, acc.stats), acc.newItems)

/-! Weights bounding the traversal's work, used as fuel. -/

mutual
/-- Structural weight of one entry. -/
def entryW : FSEntry → Nat
  | .dir _ es => 1 + entriesW es
  | _ => 1
/-- Structural weight of a listing. -/
def entriesW : List FSEntry → Nat
  | [] => 0
  | e :: es => entryW e + entriesW es
end

/-- Weight of a queue item: the weight of its pending listing. -/
def itemW (it : QItem) : Nat := entriesW it.entries

/-- Weight of the whole queue. -/
def queueW (q : List QItem) : Nat := (q.map itemW).sum

/-- Fuel sufficient to drain a queue: strictly decreases at every step. -/
def scanFuel (q : List QItem) : Nat := 2 * queueW q + q.length

/-- The BFS loop of `_process_node` (lines 154-227): pop, check
`limit_exceeded`, abort everything on a trip (the `LimitExceededError` is
raised inside the `while` loop and caught outside it, so the whole queue is
abandoned; the caught state is returned together with the flag the function
turns into its `True` result), otherwise process the item and push its child
directories.  Fuel-indexed; `scanFuel` fuel is proved sufficient below. -/
def runQF (cfg : ScanConfig) :
    Nat → List NodeRec × FileSystemStats → List QItem →
      (List NodeRec × FileSystemStats) × Bool
  | _, st, [] => (st, false)
  | 0, st, _ :: _ => (st, false)
  | fuel + 1, st, item :: rest =>
      if limit_exceeded cfg st.2 item.depth then
        (st, true)
      else
        runQF cfg fuel (processItem cfg st item).1
          (rest ++ (processItem cfg st item).2)

/-- `_process_node` with its actual abort behaviour. -/
def runQ (cfg : ScanConfig) (st : List NodeRec × FileSystemStats)
    (q : List QItem) : (List NodeRec × FileSystemStats) × Bool :=
  runQF cfg (scanFuel q) st q

/-- The spec-side comparison loop, following the spec's words (§4.2, §7): a
budget violation "terminates only the affected branch" — the offending queue
item is abandoned and traversal continues with the remaining queue, every
pending directory still getting its `limit_exceeded` check. -/
def runQBranchF (cfg : ScanConfig) :
    Nat → List NodeRec × FileSystemStats → List QItem →
      List NodeRec × FileSystemStats
  | _, st, [] => st
  | 0, st, _ :: _ => st
  | fuel + 1, st, item :: rest =>
      if limit_exceeded cfg st.2 item.depth then
        runQBranchF cfg fuel st rest
      else
        runQBranchF cfg fuel (processItem cfg st item).1
          (rest ++ (processItem cfg st item).2)

/-- Spec-side comparison traversal with branch-local aborts. -/
def runQBranch (cfg : ScanConfig) (st : List NodeRec × FileSystemStats)
    (q : List QItem) : List NodeRec × FileSystemStats :=
  runQBranchF cfg (scanFuel q) st q

/-- The root `FileSystemNode` built by `ingest_query` for a directory scan. -/
def initRoot (name : String) : NodeRec :=
  { name := name, ntype := .directory }

/-- Directory scan as performed by `ingest_query` + `_process_node`: fresh
stats, the root node queued at depth 0, then the BFS loop. -/
def ingestScan (cfg : ScanConfig) (rootName : String)
    (rootEntries : List FSEntry) : (List NodeRec × FileSystemStats) × Bool :=
  runQ cfg ([initRoot rootName], {})
    [{ nodeId := 0, parentId := none, depth := 0, relPath := [],
       entries := rootEntries }]

/-- Spec-side comparison scan (branch-local aborts). -/
def ingestScanBranch (cfg : ScanConfig) (rootName : String)
    (rootEntries : List FSEntry) : List NodeRec × FileSystemStats :=
  runQBranch cfg ([initRoot rootName], {})
    [{ nodeId := 0, parentId := none, depth := 0, relPath := [],
       entries := rootEntries }]

/-! ### Serial and parallel walks (src/gitingest/parallel/walker.py,
`_walk_serial` in src/gitingest/ingestion.py) -/

mutual
/-- `rglob` block for one entry: the entry's own path, then (for a
directory) its whole subtree. -/
def rglobE (base : List String) : FSEntry → List (List String × FSEntry)
  | .dir nm sub => (base ++ [nm], .dir nm sub) :: rglobEntries (base ++ [nm]) sub
  | e => [(base ++ [e.name], e)]
/-- `root.rglob("*")`: every descendant path (files, directories, symlinks,
others) paired with its entry. -/
def rglobEntries (base : List String) :
    List FSEntry → List (List String × FSEntry)
  | [] => []
  | e :: es => rglobE base e ++ rglobEntries base es
end

/-- Embedding of `_walk_serial`: `fn` applied (and its results spliced, as
`yield from`) to every `is_file()` path under the root. -/
def _walk_serial {α : Type} (fn : List String → List α) (base : List String)
    (entries : List FSEntry) : List α :=
  (((rglobEntries base entries).filter fun pe => pe.2.isFileE).map
      fun pe => fn pe.1).flatten

/-- Embedding of the first `walk_parallel` definition in walker.py: submit
`fn` for every `is_file()` path, then yield each future's results in
completion order.  `sched` models `as_completed`: an arbitrary reordering of
the submitted futures' results. -/
def walk_parallel_v1 {α : Type} (sched : List (List α) → List (List α))
    (fn : List String → List α) (base : List String)
    (entries : List FSEntry) : List α :=
  (sched (((rglobEntries base entries).filter fun pe => pe.2.isFileE).map
      fun pe => fn pe.1)).flatten

/-- Embedding of the second `walk_parallel` definition in walker.py — the one
that shadows the first when the module loads: `paths = list(root.rglob("*"))`
submits `fn` for every path, directories included, with no `is_file()`
filter. -/
def walk_parallel_v2 {α : Type} (sched : List (List α) → List (List α))
    (fn : List String → List α) (base : List String)
    (entries : List FSEntry) : List α :=
  (sched ((rglobEntries base entries).map fun pe => fn pe.1)).flatten

/-! ### ChunkCache (src/gitingest/cache/disk_cache.py)

`json.loads` / file reading is external: the constructor argument models the
outcome of the persisted file — `none` for `CACHE_FILE.exists()` false,
`some (.ok doc)` for a parsed document, `some (.error e)` for a
`json.loads` failure.  `hashlib.sha1` is modelled by its (injectively treated)
preimage: `_sha` hashes `str(path)` concatenated with `str(mtime_ns)`. -/

/-- A `json.loads` error (`JSONDecodeError`). -/
structure JsonErr where
  msg : String
deriving Repr, DecidableEq

/-- The in-memory `self.data` dict of `ChunkCache`, fingerprint → payload. -/
structure ChunkCacheM (π : Type) where
  data : List (String × π)
deriving Repr, DecidableEq

/-- Embedding of `_sha`: the SHA1 preimage `str(path) + str(mtime_ns)` stands
for the digest (SHA1 is deterministic, and collisions are out of scope). -/
def _sha (pathStr : String) (mtimeNs : Nat) : String :=
  pathStr ++ toString mtimeNs

/-- Embedding of `ChunkCache.__init__`: an absent file yields an empty dict;
an existing file is passed to `json.loads`, whose failure propagates — the
constructor has no exception handler. -/
def chunkCacheInit (π : Type)
    (readResult : Option (Except JsonErr (List (String × π)))) :
    Except JsonErr (ChunkCacheM π) :=
  match readResult with
  | none => .ok ⟨[]⟩
  | some (.ok doc) => .ok ⟨doc⟩
  | some (.error e) => .error e

/-- Embedding of `ChunkCache.get`: `self.data.get(_sha(path))`. -/
def chunkCacheGet {π : Type} (c : ChunkCacheM π) (pathStr : String)
    (mtimeNs : Nat) : Option π :=
  (c.data.find? fun kv => kv.1 == _sha pathStr mtimeNs).map fun kv => kv.2

/-- Embedding of `ChunkCache.set`: `self.data[_sha(path)] = chunks`
(dict overwrite for that key). -/
def chunkCacheSet {π : Type} (c : ChunkCacheM π) (pathStr : String)
    (mtimeNs : Nat) (v : π) : ChunkCacheM π :=
  ⟨(_sha pathStr mtimeNs, v)
    :: c.data.filter fun kv => !(kv.1 == _sha pathStr mtimeNs)⟩

/-- Embedding of `ChunkCache.flush`: the document `json.dumps` writes (and a
later `json.loads` reads back) is the data map itself. -/
def chunkCacheFlushDoc {π : Type} (c : ChunkCacheM π) : List (String × π) :=
  c.data

/-! ### Summary formatting (src/gitingest/output_formatters.py) -/

/-- The query fields `_create_summary_string` reads. -/
structure QueryInfo where
  userName : Option String := none
  repoName : Option String := none
  slug : String := ""
  subpath : String := "/"
  commit : Option String := none
  branch : Option String := none

/-- Python truthiness of an optional string (`None` and `""` are falsy). -/
def pyTruthy : Option String → Bool
  | none => false
  | some s => !(s == "")

/-- f-string rendering of an optional string (`None` prints as `None`). -/
def optStr : Option String → String
  | none => "None"
  | some s => s

/-- Embedding of `_create_summary_string` (lines 11-44): repository line,
`Files analyzed: {node.file_count}`, then the optional subpath and
commit/branch lines. -/
def _create_summary_string (q : QueryInfo) (node : NodeRec) : String :=
  (if pyTruthy q.userName then
     "Repository: " ++ optStr q.userName ++ "/" ++ optStr q.repoName ++ "\n"
   else
     "Repository: " ++ q.slug ++ "\n")
  ++ "Files analyzed: " ++ toString node.fileCount ++ "\n"
  ++ (if !(q.subpath == "/") then "Subpath: " ++ q.subpath ++ "\n" else "")
  ++ (if pyTruthy q.commit then "Commit: " ++ optStr q.commit ++ "\n"
      else if pyTruthy q.branch && !(optStr q.branch == "main")
          && !(optStr q.branch == "master") then
        "Branch: " ++ optStr q.branch ++ "\n"
      else "")

/-! ### Secret redaction (src/gitingest/security/secret_scan.py)

Text is embedded as `List Char`.  The `detect_secrets` scanner is external:
`scanLine` is the abstract parameter returning the `secret_value` of each
`PotentialSecret` that `scan.scan_line` yields for a line. -/

/-- The masking sentinel `"★"` (BLACK STAR). -/
def starC : Char := '★'

/-- A character `str.splitlines` treats as a line boundary. -/
def isLineBreakChar (c : Char) : Bool :=
  c == '\n' || c == '\r' || c == '\x0b' || c == '\x0c'
    || c == '\x1c' || c == '\x1d' || c == '\x1e' || c == '\x85'
    || c == '\u2028' || c == '\u2029'

/-- Worker for `str.splitlines(keepends=True)`; `acc` holds the current line
reversed. -/
def splitGo : List Char → List Char → List (List Char)
  | [], acc => if acc.isEmpty then [] else [acc.reverse]
  | '\r' :: '\n' :: rest, acc => (acc.reverse ++ ['\r', '\n']) :: splitGo rest []
  | c :: rest, acc =>
      if isLineBreakChar c then
        (acc.reverse ++ [c]) :: splitGo rest []
      else
        splitGo rest (c :: acc)

/-- `text.splitlines(keepends=True)`. -/
def splitLinesKE (text : List Char) : List (List Char) :=
  splitGo text []

/-- The cheap pre-filter of `redact_secrets`:
`any(ch.isdigit() or ch.isupper() for ch in text)` (ASCII classes in this
embedding). -/
def hasDigitOrUpper (text : List Char) : Bool :=
  text.any fun c => c.isDigit || c.isUpper

/-- `str.find`: index of the first occurrence of `s` in `l`, `none` for the
Python `-1` case. -/
def findSub (l s : List Char) : Option Nat :=
  if s.isPrefixOf l then some 0
  else
    match l with
    | [] => none
    | _ :: t => (findSub t s).map fun i => i + 1

/-- `max(4, int(len(secret) * 0.8))`.  `(n * 8) / 10 = ⌊0.8·n⌋` agrees with
the float computation for every secret length the scanner can produce
(divergence would need `n` near `2^51`). -/
def maskLen (n : Nat) : Nat := max 4 ((n * 8) / 10)

/-- One iteration of the secret loop: skip empty or absent secrets, otherwise
`line[:idx] + "★" * mask_len + line[idx + mask_len:]`. -/
def maskOne (line secret : List Char) : List Char :=
  if secret.isEmpty then line
  else
    match findSub line secret with
    | none => line
    | some idx =>
        line.take idx ++ List.replicate (maskLen secret.length) starC
          ++ line.drop (idx + maskLen secret.length)

/-- The per-line secret loop of `redact_secrets`. -/
def redactLine (secrets : List (List Char)) (line : List Char) : List Char :=
  secrets.foldl maskOne line

/-- Embedding of `redact_secrets`: pre-filter, split into lines with kept
line endings, mask each line's detected secrets, join.  The lock and the
`default_settings` context manager do not affect the value. -/
def redact_secrets (scanLine : List Char → List (List Char))
    (text : List Char) : List Char :=
  if !hasDigitOrUpper text then text
  else ((splitLinesKE text).map fun ln => redactLine (scanLine ln) ln).flatten

/-! ### Auxiliary predicates and concrete fixtures -/

/-- Number of occurrence positions of `s` inside `l` (positions `j` with `s`
a leading segment of `l.drop j`). -/
def occCount (l s : List Char) : Nat :=
  ((List.range l.length).filter fun j => s.isPrefixOf (l.drop j)).length

/-- Queue invariant of the BFS loop: depths are nondecreasing along the
queue and any two queued depths differ by at most one.  It holds for the
initial one-item queue and is preserved by processing. -/
def DepthInv (q : List QItem) : Prop :=
  List.Pairwise (fun a b => a.depth ≤ b.depth) q
    ∧ ∀ a ∈ q, ∀ b ∈ q, b.depth ≤ a.depth + 1

/-- Fixture for the symlink claim: a scan rooted at `/r` whose only entry is
a symlink `esc` resolving to `/outside/evil`. -/
def fs1 : List FSEntry :=
  [.symlink "esc" (some ["outside", "evil"]) false false]

/-- Resolution oracle for that filesystem: `/r/esc` resolves to
`/outside/evil`; every other path is already canonical. -/
def resolve1 : List String → Option (List String) :=
  fun p => if p = ["r", "esc"] then some ["outside", "evil"] else some p

/-- Limits as configured by default (depth 20, 10 000 files, 500 MB), no
patterns, scan root `/r`. -/
def cfg1 : ScanConfig :=
  { maxDepth := 20, maxFiles := 10000, maxTotalSize := 500 * 1024 * 1024,
    basePath := ["r"], ignorePatterns := [], includePatterns := [],
    matcher := fnmatchStr }

/-- Fixture for the budget claim: seven eligible flat files of size 1. -/
def fs5 : List FSEntry :=
  [.file "f1" 1, .file "f2" 1, .file "f3" 1, .file "f4" 1,
   .file "f5" 1, .file "f6" 1, .file "f7" 1]

/-- Limits with `max_files = 2`, everything else ample, scan root `/repo`. -/
def cfg5 : ScanConfig :=
  { maxDepth := 20, maxFiles := 2, maxTotalSize := 500 * 1024 * 1024,
    basePath := ["repo"], ignorePatterns := [], includePatterns := [],
    matcher := fnmatchStr }

/-- Query rendered into the summary for the budget claim (a local scan: no
user/repo, default subpath, no commit or branch). -/
def q5 : QueryInfo := { slug := "local-dir" }

/-- Fixture for the parallel-walk claim: a root containing one subdirectory
with one file. -/
def fs3 : List FSEntry := [.dir "sub" [.file "a.py" 3]]

/-- A per-file transform: report the path it was called on. -/
def fn3 : List String → List (List String) := fun p => [p]

/-- A 20-character high-entropy token (uppercase letters and digits). -/
def tok7 : List Char := "ABCD1234EFGH5678IJKL".toList

/-- A line containing that token once, amid low-entropy text. -/
def txt7 : List Char := "key = ABCD1234EFGH5678IJKL end".toList

/-! ## Theorems -/

/-- C4 (counterexample): the claim says the symlink-safety predicate accepts a
target exactly equal to the resolved scan root, but `is_safe_path` tests only
`base in target.parents`, so a target resolving to the base itself (here with
the identity resolution oracle on an already-canonical path) is rejected. -/
theorem is_safe_path_rejects_base_itself :
    is_safe_path (fun p => some p) ["r"] ["r"] = false := by decide

/-- C4 (amended): `_is_safe_symlink` accepts exactly the resolved targets that
are strictly under the resolved base or equal to it, and `is_safe_path`
accepts exactly the resolved targets strictly under the base (rejecting the
base itself); both return `False` when resolution fails. -/
theorem safety_predicates_characterized :
    ∀ (resolve : List String → Option (List String)) (base target : List String),
      (is_safe_path resolve base target = true ↔
        ∃ t, resolve target = some t ∧ base <+: t ∧ base ≠ t) ∧
      (_is_safe_symlink resolve target base = true ↔
        ∃ t b, resolve target = some t ∧ resolve base = some b
          ∧ (b <+: t ∧ b ≠ t ∨ t = b)) := by
  intro resolve base target
  constructor
  · unfold is_safe_path inParents
    cases hr : resolve target with
    | none => simp
    | some t =>
        simp [hr, List.isPrefixOf_iff_prefix]
  · unfold _is_safe_symlink inParents
    cases hr : resolve target with
    | none => simp
    | some t =>
        cases hb : resolve base with
        | none => simp
        | some b => simp [hr, hb, List.isPrefixOf_iff_prefix]

/-- C6: at every candidate entry the exclude check runs first and wins — an
ignore-matched entry is dropped whatever the include set says — and with an
empty or absent include set the decision is exactly the negation of the
exclude guard. -/
theorem exclude_checked_first :
    (∀ (m : String → String → Bool) (base path : List String)
        (ig inc : List String) (isDir : Bool),
        ig ≠ [] → _should_exclude m path base ig = true →
          keepEntry m base ig inc path isDir = false) ∧
    (∀ (m : String → String → Bool) (base path : List String)
        (ig : List String) (isDir : Bool),
        keepEntry m base ig [] path isDir
          = !(!ig.isEmpty && _should_exclude m path base ig)) := by
  constructor
  · intro m base path ig inc isDir hne hex
    have hemp : ig.isEmpty = false := by
      cases ig with
      | nil => simp at hne
      | cons a l => rfl
    simp [keepEntry, hemp, hex]
  · intro m base path ig isDir
    by_cases hig : ig.isEmpty <;>
      by_cases hex : _should_exclude m path base ig = true <;>
        simp_all [keepEntry]

/-- C6 (witness): a `.py` file matching both the ignore pattern and the
include pattern is excluded; with no include patterns the decision is the
negated exclude guard. -/
theorem exclude_checked_first_witness :
    keepEntry fnmatchStr ["r"] ["*.py"] ["*.py"] ["r", "x.py"] false = false ∧
    keepEntry fnmatchStr ["r"] ["*.py"] [] ["r", "x.py"] false
      = !(!(["*.py"] : List String).isEmpty
          && _should_exclude fnmatchStr ["r", "x.py"] ["r"] ["*.py"]) :=
  ⟨exclude_checked_first.1 fnmatchStr ["r"] ["r", "x.py"] ["*.py"] ["*.py"]
      false (by decide) (by decide),
   exclude_checked_first.2 fnmatchStr ["r"] ["r", "x.py"] ["*.py"] false⟩

/-- C8 (counterexample): the claim says a corrupt (unparsable) cache file
yields an empty cache without raising, but `ChunkCache.__init__` has no
handler around `json.loads`, so the parse error propagates instead of
producing the empty cache. -/
theorem cache_corrupt_counterexample :
    ¬ chunkCacheInit String
        (some (.error ⟨"Expecting value: line 1 column 1 (char 0)"⟩))
        = .ok ⟨[]⟩ := by
  intro h
  simp [chunkCacheInit] at h

/-- C8 (amended): an absent cache file yields an empty cache; a corrupt cache
file makes the constructor propagate the JSON parse error to the caller. -/
theorem cache_cold_start_and_corrupt (π : Type) :
    chunkCacheInit π none = .ok ⟨[]⟩ ∧
      ∀ e, chunkCacheInit π (some (.error e)) = .error e :=
  ⟨rfl, fun _ => rfl⟩

/-- C9: `set(p, v); flush()`, then constructing a new cache from the flushed
document and calling `get(p)` — with the path string and `mtime_ns`
unchanged — returns exactly `v`. -/
theorem cache_roundtrip {π : Type} (c : ChunkCacheM π) (p : String) (m : Nat)
    (v : π) :
    ∃ c2,
      chunkCacheInit π
          (some (.ok (chunkCacheFlushDoc (chunkCacheSet c p m v)))) = .ok c2
        ∧ chunkCacheGet c2 p m = some v := by
  refine ⟨⟨chunkCacheFlushDoc (chunkCacheSet c p m v)⟩, rfl, ?_⟩
  simp [chunkCacheGet, chunkCacheSet, chunkCacheFlushDoc]

/-- C3: on a root with a subdirectory holding one file, the first (shadowed)
`walk_parallel` agrees with the serial walk, but the second definition — the
one in effect after the module loads — submits `fn` for every `rglob` path
including the directory itself, so its result multiset differs from the
serial walk's (here even under the identity completion order; the multiset
does not depend on the completion order). -/
theorem effective_walk_parallel_diverges_from_serial :
    walk_parallel_v1 id fn3 ["r"] fs3 = _walk_serial fn3 ["r"] fs3 ∧
    ¬ (walk_parallel_v2 id fn3 ["r"] fs3).Perm (_walk_serial fn3 ["r"] fs3) := by
  exact ⟨rfl, by decide⟩

/-- C1: `_process_symlink` appends every symlink as a node without consulting
any safety predicate.  The symlink `esc` of `fs1` resolves to
`/outside/evil`, outside the scan root `/r` — both safety predicates reject
it — yet the scan emits it as child node 1 of the root and counts it. -/
theorem unsafe_symlink_still_emitted :
    is_safe_path resolve1 ["r"] ["r", "esc"] = false ∧
    _is_safe_symlink resolve1 ["r", "esc"] ["r"] = false ∧
    (getN (ingestScan cfg1 "r" fs1).1.1 0).children = [1] ∧
    getN (ingestScan cfg1 "r" fs1).1.1 1
      = { name := "esc", ntype := .symlink, depth := 1, relPath := ["esc"] } ∧
    (ingestScan cfg1 "r" fs1).1.2.totalFiles = 1 := by decide

/-- C5: with `max_files = 2` and seven eligible flat files, the scan appends
exactly two file nodes, the root's `file_count` is 2, and the summary is
exactly `Repository: local-dir\nFiles analyzed: 2\n` — containing the line
`Files analyzed: 2`. -/
theorem max_files_two_of_seven :
    ((ingestScan cfg5 "local-dir" fs5).1.1.filter fun n => n.ntype == .file).length = 2 ∧
    (getN (ingestScan cfg5 "local-dir" fs5).1.1 0).fileCount = 2 ∧
    _create_summary_string q5 (getN (ingestScan cfg5 "local-dir" fs5).1.1 0)
      = "Repository: local-dir\nFiles analyzed: 2\n" := by decide

/-! ### Traversal lemmas: budget aborts and the total-size invariant -/

/-- Queue weight distributes over append. -/
theorem queueW_append (a b : List QItem) : queueW (a ++ b) = queueW a + queueW b := by
  simp [queueW]

/-- Queue weight of a cons. -/
theorem queueW_cons (a : QItem) (q : List QItem) :
    queueW (a :: q) = itemW a + queueW q := by
  simp [queueW]

/-- One entry adds at most its own weight's worth of pending work. -/
theorem processEntry_newItems_w (cfg : ScanConfig) (cid : Nat)
    (rel : List String) (d : Nat) (acc : PAcc) (e : FSEntry) :
    2 * queueW (processEntry cfg cid rel d acc e).newItems
        + (processEntry cfg cid rel d acc e).newItems.length
      ≤ 2 * queueW acc.newItems + acc.newItems.length + 2 * entryW e := by
  cases e with
  | file nm sz =>
      simp only [processEntry]
      split
      · omega
      · split
        · first
          | omega
          | (dsimp only; omega)
        · split <;> first
            | omega
            | (dsimp only; omega)
  | dir nm es =>
      simp only [processEntry]
      split
      · omega
      · simp [queueW_append, queueW, itemW, entryW]
        omega
  | symlink nm t td tf =>
      simp only [processEntry]
      split <;> first
        | omega
        | (dsimp only; omega)
  | other nm =>
      simp only [processEntry]
      split <;> first
        | omega
        | (dsimp only; omega)

/-- Fold version of `processEntry_newItems_w`. -/
theorem processEntries_newItems_w (cfg : ScanConfig) (cid : Nat)
    (rel : List String) (d : Nat) :
    ∀ (es : List FSEntry) (acc : PAcc),
      2 * queueW (es.foldl (processEntry cfg cid rel d) acc).newItems
          + (es.foldl (processEntry cfg cid rel d) acc).newItems.length
        ≤ 2 * queueW acc.newItems + acc.newItems.length + 2 * entriesW es := by
  intro es
  induction es with
  | nil => intro acc; simp [entriesW]
  | cons e es ih =>
      intro acc
      have h1 := ih (processEntry cfg cid rel d acc e)
      have h2 := processEntry_newItems_w cfg cid rel d acc e
      simp only [List.foldl_cons, entriesW]
      omega

/-- The children enqueued for one popped item weigh strictly less than the
item's listing. -/
theorem processItem_newItems_w (cfg : ScanConfig)
    (st : List NodeRec × FileSystemStats) (item : QItem) :
    2 * queueW (processItem cfg st item).2 + (processItem cfg st item).2.length
      ≤ 2 * itemW item := by
  have h := processEntries_newItems_w cfg item.nodeId item.relPath item.depth
    item.entries ⟨st.1, st.2, getN st.1 item.nodeId, []⟩
  simp only [processItem]
  simpa [queueW, itemW] using h

/-- The fuel measure strictly decreases across one processed item. -/
theorem scanFuel_step (cfg : ScanConfig) (st : List NodeRec × FileSystemStats)
    (item : QItem) (rest : List QItem) :
    scanFuel (rest ++ (processItem cfg st item).2) < scanFuel (item :: rest) := by
  have h := processItem_newItems_w cfg st item
  simp only [scanFuel, queueW_append, queueW_cons, List.length_append,
    List.length_cons]
  omega

/-- The fuel measure strictly decreases when an item is merely skipped. -/
theorem scanFuel_tail (item : QItem) (rest : List QItem) :
    scanFuel rest < scanFuel (item :: rest) := by
  simp only [scanFuel, queueW_cons, List.length_cons]
  omega

/-- `limit_exceeded` is monotone in the depth argument. -/
theorem limit_exceeded_mono (cfg : ScanConfig) (stats : FileSystemStats)
    (d d' : Nat) (h : limit_exceeded cfg stats d = true) (hd : d ≤ d') :
    limit_exceeded cfg stats d' = true := by
  simp only [limit_exceeded, Bool.or_eq_true, decide_eq_true_eq] at h ⊢
  omega

/-- One entry enqueues only items at the next depth. -/
theorem processEntry_newItems_depth (cfg : ScanConfig) (cid : Nat)
    (rel : List String) (d : Nat) (acc : PAcc) (e : FSEntry) :
    ∀ it ∈ (processEntry cfg cid rel d acc e).newItems,
      it ∈ acc.newItems ∨ it.depth = d + 1 := by
  cases e with
  | file nm sz =>
      simp only [processEntry]
      split
      · exact fun it h => Or.inl h
      · split
        · exact fun it h => Or.inl h
        · split
          · exact fun it h => Or.inl h
          · exact fun it h => Or.inl h
  | dir nm es =>
      simp only [processEntry]
      split
      · exact fun it h => Or.inl h
      · intro it h
        rcases List.mem_append.mp h with h1 | h1
        · exact Or.inl h1
        · right
          rw [List.mem_singleton.mp h1]
  | symlink nm t td tf =>
      simp only [processEntry]
      split
      · exact fun it h => Or.inl h
      · exact fun it h => Or.inl h
  | other nm =>
      simp only [processEntry]
      split
      · exact fun it h => Or.inl h
      · exact fun it h => Or.inl h

/-- Fold version of `processEntry_newItems_depth`. -/
theorem processEntries_newItems_depth (cfg : ScanConfig) (cid : Nat)
    (rel : List String) (d : Nat) :
    ∀ (es : List FSEntry) (acc : PAcc),
      ∀ it ∈ (es.foldl (processEntry cfg cid rel d) acc).newItems,
        it ∈ acc.newItems ∨ it.depth = d + 1 := by
  intro es
  induction es with
  | nil => intro acc it h; exact Or.inl h
  | cons e es ih =>
      intro acc it h
      rcases ih (processEntry cfg cid rel d acc e) it h with h1 | h1
      · exact processEntry_newItems_depth cfg cid rel d acc e it h1
      · exact Or.inr h1

/-- Every child item enqueued by one popped item sits at the next depth. -/
theorem processItem_kids_depth (cfg : ScanConfig)
    (st : List NodeRec × FileSystemStats) (item : QItem) :
    ∀ it ∈ (processItem cfg st item).2, it.depth = item.depth + 1 := by
  intro it h
  simp only [processItem] at h
  rcases processEntries_newItems_depth cfg item.nodeId item.relPath item.depth
      item.entries ⟨st.1, st.2, getN st.1 item.nodeId, []⟩ it h with h1 | h1
  · simp at h1
  · exact h1

/-- The queue invariant survives one processing step. -/
theorem depthInv_step (cfg : ScanConfig) (st : List NodeRec × FileSystemStats)
    (item : QItem) (rest : List QItem) (h : DepthInv (item :: rest)) :
    DepthInv (rest ++ (processItem cfg st item).2) := by
  obtain ⟨hp, hb⟩ := h
  have hk := processItem_kids_depth cfg st item
  have hhead : ∀ a ∈ rest, item.depth ≤ a.depth := (List.pairwise_cons.mp hp).1
  have hbnd : ∀ a ∈ item :: rest, a.depth ≤ item.depth + 1 := by
    intro a ha
    exact hb item (List.mem_cons_self _ _) a ha
  constructor
  · rw [List.pairwise_append]
    refine ⟨hp.of_cons, ?_, ?_⟩
    · refine List.pairwise_of_forall_mem_list ?_
      intro a ha b hb2
      rw [hk a ha, hk b hb2]
    · intro a ha b hb2
      rw [hk b hb2]
      exact hbnd a (List.mem_cons_of_mem _ ha)
  · intro a ha b hb2
    rcases List.mem_append.mp ha with ha1 | ha2
    · have h1 : item.depth ≤ a.depth := hhead a ha1
      rcases List.mem_append.mp hb2 with hb1 | hb3
      · have h2 : b.depth ≤ item.depth + 1 := hbnd b (List.mem_cons_of_mem _ hb1)
        omega
      · have h2 := hk b hb3
        omega
    · have h1 := hk a ha2
      rcases List.mem_append.mp hb2 with hb1 | hb3
      · have h2 : b.depth ≤ item.depth + 1 := hbnd b (List.mem_cons_of_mem _ hb1)
        omega
      · have h2 := hk b hb3
        omega

/-- When every queued item already trips the limit check, the spec-side
branch-abort loop drains the queue without changing the state. -/
theorem runQBranchF_all_trip (cfg : ScanConfig) :
    ∀ (fuel : Nat) (st : List NodeRec × FileSystemStats) (q : List QItem),
      (∀ i ∈ q, limit_exceeded cfg st.2 i.depth = true) →
      runQBranchF cfg fuel st q = st := by
  intro fuel
  induction fuel with
  | zero => intro st q _; cases q <;> rfl
  | succ fuel ih =>
      intro st q h
      cases q with
      | nil => rfl
      | cons item rest =>
          simp only [runQBranchF]
          rw [if_pos (h item (List.mem_cons_self _ _))]
          exact ih st rest fun i hi => h i (List.mem_cons_of_mem _ hi)

/-- Core of C2: on any queue satisfying the depth invariant, the code's
whole-queue abort and the spec's branch-local abort produce the same final
state, because the limit check is monotone in the traversal's progress. -/
theorem runQF_eq_runQBranchF (cfg : ScanConfig) :
    ∀ (fuel : Nat) (st : List NodeRec × FileSystemStats) (q : List QItem),
      scanFuel q ≤ fuel → DepthInv q →
      (runQF cfg fuel st q).1 = runQBranchF cfg fuel st q := by
  intro fuel
  induction fuel with
  | zero =>
      intro st q hf _
      cases q with
      | nil => rfl
      | cons a r =>
          exfalso
          simp only [scanFuel, queueW_cons, List.length_cons] at hf
          omega
  | succ fuel ih =>
      intro st q hf hinv
      cases q with
      | nil => rfl
      | cons item rest =>
          simp only [runQF, runQBranchF]
          by_cases htrip : limit_exceeded cfg st.2 item.depth = true
          · rw [if_pos htrip, if_pos htrip]
            refine Eq.symm (runQBranchF_all_trip cfg fuel st rest ?_)
            intro i hi
            exact limit_exceeded_mono cfg st.2 item.depth i.depth htrip
              ((List.pairwise_cons.mp hinv.1).1 i hi)
          · rw [if_neg htrip, if_neg htrip]
            refine ih _ _ ?_ ?_
            · have := scanFuel_step cfg st item rest
              omega
            · exact depthInv_step cfg st item rest hinv

/-- C2: exceeding any budget never raises to the caller (the traversal is a
total function returning the partial state), and the state it returns is
exactly the state of the spec-described traversal in which a violation
aborts only the offending branch while every other pending directory is
still handed to the limit check: nothing already collected is lost and no
node the branch-local traversal would keep is missing. -/
theorem limit_abort_matches_branch_abort (cfg : ScanConfig) (rootName : String)
    (rootEntries : List FSEntry) :
    (ingestScan cfg rootName rootEntries).1
      = ingestScanBranch cfg rootName rootEntries := by
  unfold ingestScan ingestScanBranch runQ runQBranch
  refine runQF_eq_runQBranchF cfg _ _ _ le_rfl ?_
  constructor
  · simp
  · intro a ha b hb
    simp only [List.mem_singleton] at ha hb
    subst ha
    subst hb
    omega

/-- One entry never pushes the running total past the size budget: the
size-budget check precedes the accumulation. -/
theorem processEntry_totalSize_le (cfg : ScanConfig) (cid : Nat)
    (rel : List String) (d : Nat) (acc : PAcc) (e : FSEntry)
    (hmax : acc.stats.totalSize ≤ cfg.maxTotalSize) :
    (processEntry cfg cid rel d acc e).stats.totalSize ≤ cfg.maxTotalSize := by
  cases e with
  | file nm sz =>
      simp only [processEntry]
      split
      · exact hmax
      · split
        · omega
        · split
          · simp only []
            omega
          · simp only []
            omega
  | dir nm es =>
      simp only [processEntry]
      split <;> exact hmax
  | symlink nm t td tf =>
      simp only [processEntry]
      split <;> exact hmax
  | other nm =>
      simp only [processEntry]
      split <;> exact hmax

/-- Fold version of `processEntry_totalSize_le`. -/
theorem processEntries_totalSize_le (cfg : ScanConfig) (cid : Nat)
    (rel : List String) (d : Nat) :
    ∀ (es : List FSEntry) (acc : PAcc),
      acc.stats.totalSize ≤ cfg.maxTotalSize →
      (es.foldl (processEntry cfg cid rel d) acc).stats.totalSize
        ≤ cfg.maxTotalSize := by
  intro es
  induction es with
  | nil => intro acc h; exact h
  | cons e es ih =>
      intro acc h
      exact ih _ (processEntry_totalSize_le cfg cid rel d acc e h)

/-- Item version of the size invariant. -/
theorem processItem_totalSize_le (cfg : ScanConfig)
    (st : List NodeRec × FileSystemStats) (item : QItem)
    (h : st.2.totalSize ≤ cfg.maxTotalSize) :
    (processItem cfg st item).1.2.totalSize ≤ cfg.maxTotalSize := by
  simp only [processItem]
  exact processEntries_totalSize_le cfg item.nodeId item.relPath item.depth
    item.entries ⟨st.1, st.2, getN st.1 item.nodeId, []⟩ h

/-- Loop version of the size invariant. -/
theorem runQF_totalSize_le (cfg : ScanConfig) :
    ∀ (fuel : Nat) (st : List NodeRec × FileSystemStats) (q : List QItem),
      st.2.totalSize ≤ cfg.maxTotalSize →
      (runQF cfg fuel st q).1.2.totalSize ≤ cfg.maxTotalSize := by
  intro fuel
  induction fuel with
  | zero => intro st q h; cases q <;> exact h
  | succ fuel ih =>
      intro st q h
      cases q with
      | nil => exact h
      | cons item rest =>
          simp only [runQF]
          split
          · exact h
          · exact ih _ _ (processItem_totalSize_le cfg st item h)

/-- C10: the running total never exceeds `MAX_TOTAL_SIZE_BYTES`: a file's
size is accumulated only under the guard
`total_size + file_size ≤ MAX_TOTAL_SIZE_BYTES` and no other traversal
operation grows the total, so every entry step preserves the bound and a scan
started from fresh statistics ends (and stays, throughout) within it. -/
theorem total_size_budget_invariant :
    (∀ (cfg : ScanConfig) (cid : Nat) (rel : List String) (d : Nat)
        (acc : PAcc) (e : FSEntry),
        acc.stats.totalSize ≤ cfg.maxTotalSize →
        (processEntry cfg cid rel d acc e).stats.totalSize ≤ cfg.maxTotalSize) ∧
    (∀ (cfg : ScanConfig) (rootName : String) (rootEntries : List FSEntry),
        (ingestScan cfg rootName rootEntries).1.2.totalSize
          ≤ cfg.maxTotalSize) := by
  constructor
  · exact processEntry_totalSize_le
  · intro cfg rootName rootEntries
    exact runQF_totalSize_le cfg _ _ _ (Nat.zero_le _)

/-- C10 (witness): the entry-step bound applied to a concrete accumulator and
file, and the whole-scan bound visible on the seven-file fixture. -/
theorem total_size_budget_invariant_witness :
    (processEntry cfg5 0 [] 0 ⟨[initRoot "w"], {}, initRoot "w", []⟩
        (.file "a" 1)).stats.totalSize ≤ cfg5.maxTotalSize :=
  total_size_budget_invariant.1 cfg5 0 [] 0
    ⟨[initRoot "w"], {}, initRoot "w", []⟩ (.file "a" 1) (by decide)

/-! ### Redaction lemmas -/

/-- A prefix of an append that fits inside the first part is a prefix of the
first part. -/
theorem prefix_of_append_of_le (s u v : List Char) (h : s <+: u ++ v)
    (hle : s.length ≤ u.length) : s <+: u := by
  have h2 := List.prefix_iff_eq_take.mp h
  rw [List.take_append_eq_append_take, Nat.sub_eq_zero_of_le hle,
    List.take_zero, List.append_nil] at h2
  rw [h2]
  exact List.take_prefix s.length u

/-- Infixes are exactly the prefixes of drops. -/
theorem infix_iff_exists_drop (s x : List Char) :
    s <:+: x ↔ ∃ j, s <+: x.drop j := by
  constructor
  · rintro ⟨u, v, huv⟩
    refine ⟨u.length, ?_⟩
    rw [← huv, List.append_assoc, List.drop_left]
    exact ⟨v, rfl⟩
  · rintro ⟨j, hp⟩
    exact hp.isInfix.trans (List.drop_suffix j x).isInfix

/-- `str.find` success: the needle occurs at the returned index and at no
earlier one. -/
theorem findSub_some (s : List Char) :
    ∀ (l : List Char) (i : Nat), findSub l s = some i →
      s <+: l.drop i ∧ ∀ j < i, ¬ s <+: l.drop j := by
  intro l
  induction l with
  | nil =>
      intro i h
      unfold findSub at h
      split at h
      · obtain rfl : (0 : Nat) = i := by simpa using h
        refine ⟨?_, fun j hj => absurd hj (by omega)⟩
        simpa [List.isPrefixOf_iff_prefix] using ‹s.isPrefixOf [] = true›
      · simp at h
  | cons c t ih =>
      intro i h
      unfold findSub at h
      split at h
      · obtain rfl : (0 : Nat) = i := by simpa using h
        refine ⟨?_, fun j hj => absurd hj (by omega)⟩
        simpa [List.isPrefixOf_iff_prefix] using
          ‹s.isPrefixOf (c :: t) = true›
      · rename_i hnp
        obtain ⟨j0, hj0, rfl⟩ :
            ∃ j0, findSub t s = some j0 ∧ i = j0 + 1 := by
          cases hf : findSub t s with
          | none => simp [hf] at h
          | some j0 =>
              simp [hf] at h
              exact ⟨j0, rfl, by omega⟩
        obtain ⟨ha, hb⟩ := ih j0 hj0
        refine ⟨by simpa using ha, ?_⟩
        intro j hj
        cases j with
        | zero =>
            intro hp
            exact hnp (by simpa [List.isPrefixOf_iff_prefix] using hp)
        | succ j2 =>
            intro hp
            exact hb j2 (by omega) (by simpa using hp)

/-- `str.find` failure: the needle occurs nowhere. -/
theorem findSub_none (s : List Char) :
    ∀ (l : List Char), findSub l s = none → ∀ j, ¬ s <+: l.drop j := by
  intro l
  induction l with
  | nil =>
      intro h j hp
      unfold findSub at h
      split at h
      · simp at h
      · rename_i hc
        have hs : s = [] := List.prefix_nil.mp (by simpa using hp)
        subst hs
        simp [List.isPrefixOf] at hc
  | cons c t ih =>
      intro h j hp
      unfold findSub at h
      split at h
      · simp at h
      · rename_i hc
        have ht : findSub t s = none := by
          cases hf : findSub t s with
          | none => rfl
          | some j0 => simp [hf] at h
        cases j with
        | zero => exact hc (by simpa [List.isPrefixOf_iff_prefix] using hp)
        | succ j2 => exact ih ht j2 (by simpa using hp)

/-- A nonempty needle occurring at `j` forces `j` inside the haystack. -/
theorem occ_lt_length (l s : List Char) (j : Nat) (hs : s ≠ [])
    (h : s <+: l.drop j) : j < l.length := by
  by_contra hj
  push_neg at hj
  rw [List.drop_eq_nil_of_le hj] at h
  exact hs (List.prefix_nil.mp h)

/-- A single occurrence: its position, and uniqueness of any occurrence. -/
theorem occCount_one (l s : List Char) (hs : s ≠ []) (h : occCount l s = 1) :
    ∃ idx, s <+: l.drop idx ∧ ∀ j, s <+: l.drop j → j = idx := by
  unfold occCount at h
  obtain ⟨x, hx⟩ := List.length_eq_one.mp h
  refine ⟨x, ?_, ?_⟩
  · have hmem : x ∈ (List.range l.length).filter
        (fun j => s.isPrefixOf (l.drop j)) := by
      rw [hx]; exact List.mem_singleton_self x
    have := (List.mem_filter.mp hmem).2
    simpa [List.isPrefixOf_iff_prefix] using this
  · intro j hj
    have hjlt : j < l.length := occ_lt_length l s j hs hj
    have hmem : j ∈ (List.range l.length).filter
        (fun j => s.isPrefixOf (l.drop j)) := by
      refine List.mem_filter.mpr ⟨List.mem_range.mpr hjlt, ?_⟩
      simpa [List.isPrefixOf_iff_prefix] using hj
    rw [hx, List.mem_singleton] at hmem
    exact hmem

/-- An occurrence anywhere makes `str.find` succeed. -/
theorem findSub_isSome_of_occ (l s : List Char) (j : Nat)
    (h : s <+: l.drop j) : ∃ i, findSub l s = some i := by
  cases hf : findSub l s with
  | none => exact absurd h (findSub_none s l hf j)
  | some i => exact ⟨i, rfl⟩

set_option maxHeartbeats 2000000 in
/-- Unfolding step of `splitGo` over a non-break character. -/
theorem splitGo_cons_no_break (c : Char) (rest acc : List Char)
    (hc : isLineBreakChar c = false) :
    splitGo (c :: rest) acc = splitGo rest (c :: acc) := by
  rw [splitGo.eq_def]
  split
  · rename_i heq
    simp at heq
  · rename_i r2 heq
    obtain ⟨h1, -⟩ := List.cons.inj heq
    subst h1
    simp [isLineBreakChar] at hc
  · rename_i c2 r2 hnm heq
    obtain ⟨h1, h2⟩ := List.cons.inj heq
    subst h1
    subst h2
    rw [if_neg (by simp [hc])]

/-- A break-free text splits into the single line holding it all. -/
theorem splitGo_no_break :
    ∀ (l : List Char) (acc : List Char),
      (∀ c ∈ l, isLineBreakChar c = false) →
      splitGo l acc
        = if (acc.reverse ++ l).isEmpty then [] else [acc.reverse ++ l] := by
  intro l
  induction l with
  | nil =>
      intro acc _
      cases acc <;> simp [splitGo]
  | cons c rest ih =>
      intro acc h
      have hc : isLineBreakChar c = false := h c (List.mem_cons_self _ _)
      rw [splitGo_cons_no_break c rest acc hc,
        ih (c :: acc) (fun x hx => h x (List.mem_cons_of_mem _ hx))]
      simp

/-- A nonempty break-free text is a single kept line. -/
theorem splitLinesKE_single (text : List Char) (hne : text ≠ [])
    (h : ∀ c ∈ text, isLineBreakChar c = false) :
    splitLinesKE text = [text] := by
  rw [splitLinesKE, splitGo_no_break text [] h]
  simp [hne]

/-- On a break-free line with exactly one detected secret, `redact_secrets`
is the single mask step. -/
theorem redact_single_line (scanLine : List Char → List (List Char))
    (text s : List Char) (hne : text ≠ [])
    (hb : ∀ c ∈ text, isLineBreakChar c = false)
    (hdu : hasDigitOrUpper text = true) (hscan : scanLine text = [s]) :
    redact_secrets scanLine text = maskOne text s := by
  unfold redact_secrets
  rw [if_neg (by simp [hdu]), splitLinesKE_single text hne hb]
  simp [hscan, redactLine]

/-- The mask replaces exactly `mask_len` characters from the found index by
the star run (line 25-27 of secret_scan.py). -/
theorem maskOne_eq (line s : List Char) (idx : Nat) (hs : s ≠ [])
    (hf : findSub line s = some idx) :
    maskOne line s
      = line.take idx ++ List.replicate (maskLen s.length) starC
          ++ line.drop (idx + maskLen s.length) := by
  unfold maskOne
  rw [if_neg (by simp [hs]), hf]

/-- Core redaction fact: after masking the unique occurrence of a star-free
nonempty secret with a nonempty star run, the secret no longer occurs. -/
theorem masked_no_occurrence (text s : List Char) (idx m : Nat)
    (hm : 1 ≤ m) (hsne : s ≠ []) (hstar : starC ∉ s)
    (hocc : s <+: text.drop idx)
    (huniq : ∀ j, s <+: text.drop j → j = idx) :
    ¬ s <:+: (text.take idx
        ++ (List.replicate m starC ++ text.drop (idx + m))) := by
  intro hinf
  have hslen : 0 < s.length := List.length_pos.mpr hsne
  have hidxlt : idx < text.length := occ_lt_length text s idx hsne hocc
  have hAlen : (text.take idx).length = idx := by
    simp [List.length_take]
    omega
  obtain ⟨j, hj⟩ := (infix_iff_exists_drop s _).mp hinf
  by_cases h1 : j + s.length ≤ idx
  · -- the supposed occurrence sits inside the untouched leading segment
    rw [List.drop_append_eq_append_drop, Nat.sub_eq_zero_of_le (by omega),
      List.drop_zero] at hj
    have hsA : s <+: (text.take idx).drop j := by
      refine prefix_of_append_of_le _ _ _ hj ?_
      simp [List.length_drop, hAlen]
      omega
    rw [List.drop_take] at hsA
    have hocc2 : s <+: text.drop j := hsA.trans (List.take_prefix _ _)
    have := huniq j hocc2
    omega
  · by_cases h2 : idx + m ≤ j
    · -- the supposed occurrence sits inside the untouched trailing segment
      have hdropj : (text.take idx
          ++ (List.replicate m starC ++ text.drop (idx + m))).drop j
            = text.drop j := by
        rw [List.drop_append_eq_append_drop, List.drop_append_eq_append_drop,
          List.drop_eq_nil_of_le (by omega),
          List.drop_eq_nil_of_le (by simp [List.length_replicate, hAlen]; omega)]
        simp only [List.nil_append]
        rw [List.drop_drop]
        congr 1
        simp [hAlen, List.length_replicate]
        omega
      rw [hdropj] at hj
      have := huniq j hj
      omega
    · -- the supposed occurrence overlaps the star run: a star inside `s`
      push_neg at h1 h2
      exfalso
      obtain ⟨p, hjp, hip, hplt, hpj⟩ :
          ∃ p, j ≤ p ∧ idx ≤ p ∧ p < idx + m ∧ p - j < s.length := by
        rcases Nat.le_total j idx with hc | hc
        · exact ⟨idx, hc, le_rfl, by omega, by omega⟩
        · exact ⟨j, le_rfl, hc, by omega, by omega⟩
      obtain ⟨r, hr⟩ := hj
      have hdp : (text.take idx
          ++ (List.replicate m starC ++ text.drop (idx + m))).drop p
            = List.replicate (m - (p - idx)) starC ++ text.drop (idx + m) := by
        rw [List.drop_append_eq_append_drop,
          List.drop_eq_nil_of_le (by omega), List.nil_append, hAlen,
          List.drop_append_eq_append_drop, List.length_replicate,
          show p - idx - m = 0 from by omega,
          List.drop_zero, List.drop_replicate]
      obtain ⟨n2, hn2⟩ : ∃ n2, m - (p - idx) = n2 + 1 :=
        ⟨m - (p - idx) - 1, by omega⟩
      have hcons : (text.take idx
          ++ (List.replicate m starC ++ text.drop (idx + m))).drop p
            = starC :: (List.replicate n2 starC ++ text.drop (idx + m)) := by
        rw [hdp, hn2, List.replicate_succ, List.cons_append]
      have hdp2 : (text.take idx
          ++ (List.replicate m starC ++ text.drop (idx + m))).drop p
            = s.drop (p - j) ++ r := by
        rw [show p = j + (p - j) from by omega, ← List.drop_drop, ← hr,
          List.drop_append_eq_append_drop,
          show p - j - s.length = 0 from by omega, List.drop_zero]
        simp [Nat.add_sub_cancel_left]
      rw [hdp2] at hcons
      have hsd : s.drop (p - j) ≠ [] := by
        intro he
        have := List.length_drop (p - j) s
        rw [he] at this
        simp at this
        omega
      obtain ⟨a, ta, hta⟩ := List.exists_cons_of_ne_nil hsd
      rw [hta, List.cons_append, List.cons.injEq] at hcons
      have : starC ∈ s := by
        refine List.mem_of_mem_drop (n := p - j) ?_
        rw [hta, ← hcons.1]
        exact List.mem_cons_self _ _
      exact hstar this

/-- C7: each detected secret found by substring search is masked in place by
a star run of length `max(4, 0.8·len)` (first conjunct, the loop step); and
on a line holding one detected 20-character star-free high-entropy token
occurring once, the token no longer occurs anywhere in `redact()`'s output,
which instead carries the 16-star mask run (second conjunct). -/
theorem redact_masks_detected_secret :
    (∀ (line s : List Char) (idx : Nat), s ≠ [] → findSub line s = some idx →
        maskOne line s
          = line.take idx ++ List.replicate (maskLen s.length) starC
              ++ line.drop (idx + maskLen s.length)) ∧
    (∀ (scanLine : List Char → List (List Char)) (text s : List Char),
        (∀ c ∈ text, isLineBreakChar c = false) →
        hasDigitOrUpper text = true →
        scanLine text = [s] →
        s.length = 20 →
        starC ∉ s →
        occCount text s = 1 →
        ¬ s <:+: redact_secrets scanLine text
          ∧ List.replicate 16 starC <:+: redact_secrets scanLine text) := by
  constructor
  · exact maskOne_eq
  · intro scanLine text s hb hdu hscan hlen hstar hone
    have hsne : s ≠ [] := by
      intro he
      rw [he] at hlen
      simp at hlen
    have htne : text ≠ [] := by
      intro he
      rw [he] at hdu
      simp [hasDigitOrUpper] at hdu
    obtain ⟨idx0, hocc0, huniq0⟩ := occCount_one text s hsne hone
    obtain ⟨idx, hfind⟩ := findSub_isSome_of_occ text s idx0 hocc0
    obtain ⟨hocc, -⟩ := findSub_some s text idx hfind
    have huniq : ∀ j, s <+: text.drop j → j = idx := by
      intro j hj
      rw [huniq0 j hj, huniq0 idx hocc]
    have hred : redact_secrets scanLine text = maskOne text s :=
      redact_single_line scanLine text s htne hb hdu hscan
    have hml : maskLen s.length = 16 := by rw [hlen]; decide
    have hmask : maskOne text s
        = text.take idx
            ++ (List.replicate 16 starC ++ text.drop (idx + 16)) := by
      rw [maskOne_eq text s idx hsne hfind, hml, List.append_assoc]
    constructor
    · rw [hred, hmask]
      exact masked_no_occurrence text s idx 16 (by omega) hsne hstar hocc huniq
    · rw [hred, hmask]
      exact ⟨text.take idx, text.drop (idx + 16), List.append_assoc _ _ _⟩

/-- C7 (witness): the loop-step equation at the concrete token found at
index 6 of the fixture line, and the redaction of that line: the 20-character
token is gone and the 16-star run is present. -/
theorem redact_masks_detected_secret_witness :
    maskOne txt7 tok7
        = txt7.take 6 ++ List.replicate (maskLen tok7.length) starC
            ++ txt7.drop (6 + maskLen tok7.length) ∧
    (¬ tok7 <:+: redact_secrets (fun _ => [tok7]) txt7
      ∧ List.replicate 16 starC <:+: redact_secrets (fun _ => [tok7]) txt7) :=
  ⟨redact_masks_detected_secret.1 txt7 tok7 6 (by decide) (by decide),
   redact_masks_detected_secret.2 (fun _ => [tok7]) txt7 tok7 (by decide)
     (by decide) rfl (by decide) (by decide) (by decide)⟩
